import Mathlib

/-!
# Verification of the repository history range resolver (`src/cli/git.rs`)

This file is a shallow embedding of the range-resolver core of the `release`
tool: semantic-version tag selection, default-branch resolution, and the
merge-base / revwalk range computation, together with the two pure helpers
`get_short_message` and `get_abbreviated_hash`.

Modelling conventions:
* Rust `Result`/`Option` become `Except String` / `Option`.
* `git2::Repository` becomes an explicit `Repo` record carrying the commit
  store, the reference list, the remote-advertised default branch, the HEAD
  reference and a merge-base oracle (libgit2's `merge_base` is external
  library code; it is modelled as an oracle returning `Except`, exactly as
  the Rust side sees it through `Result`).
* The `semver` crate's `Version::parse` and `Ord for Version` are embedded
  directly (strict major.minor.patch parsing with optional pre-release and
  build metadata, ordering lexicographic over major, minor, patch,
  pre-release, build — the crate's total order refines semver-spec
  precedence, which ignores build metadata).
* The libgit2 revwalk seeded with the base, sorted by `git2::Sort::TIME`
  and optionally hiding the merge-base is modelled from libgit2's
  documented contract: it yields the commits reachable from the pushed
  commit and not reachable from the hidden one, ordered by commit time,
  newest first.
-/

namespace Release

/-! ## Ordering combinators

`Ordering`-valued comparison functions, mirroring Rust's `Ordering` and the
way the `semver` crate chains field comparisons. -/

/-- Three-way comparison on a linear order, as Rust's `Ord::cmp`. -/
def cmpLin {α : Type} [LinearOrder α] (a b : α) : Ordering :=
  if a < b then .lt else if a = b then .eq else .gt

/-- Sequential composition of comparisons: the second one only decides ties
of the first (Rust's pattern `match cmp { Equal => next, o => o }`). -/
def cmpThen {α : Type} (f g : α → α → Ordering) (a b : α) : Ordering :=
  match f a b with
  | .eq => g a b
  | o => o

/-- Comparison through a projection. -/
def cmpOn {α β : Type} (f : β → β → Ordering) (p : α → β) (a b : α) : Ordering :=
  f (p a) (p b)

/-- Lexicographic comparison of lists, shorter-is-less on exhaustion:
mirrors the identifier loops in the `semver` crate's `Ord` impls. -/
def cmpList {α : Type} (f : α → α → Ordering) : List α → List α → Ordering
  | [], [] => .eq
  | [], _ :: _ => .lt
  | _ :: _, [] => .gt
  | a :: as, b :: bs =>
    match f a b with
    | .eq => cmpList f as bs
    | o => o

/-- The laws a three-way comparison must satisfy for `max_by`-style
reasoning: reflexivity, antisymmetry via `swap`, substitution of
`eq`-related elements on the left, and transitivity of strict `lt`. -/
structure LawfulCmp {α : Type} (f : α → α → Ordering) : Prop where
  refl : ∀ a, f a a = .eq
  symm : ∀ a b, f a b = (f b a).swap
  congrL : ∀ a b, f a b = .eq → ∀ c, f a c = f b c
  lt_trans : ∀ a b c, f a b = .lt → f b c = .lt → f a c = .lt

/-! ## Semantic versions (`semver` crate model) -/

/-- ASCII digit test (`u8::is_ascii_digit`). -/
def isDigitC (c : Char) : Bool := 48 ≤ c.toNat && c.toNat ≤ 57

/-- Characters allowed in pre-release / build identifiers:
ASCII alphanumerics and hyphen. -/
def isIdentC (c : Char) : Bool :=
  isDigitC c || (97 ≤ c.toNat && c.toNat ≤ 122) || (65 ≤ c.toNat && c.toNat ≤ 90) || c == '-'

/-- Value of a digit string. -/
def digitsVal (ds : List Char) : Nat :=
  ds.foldl (fun acc c => acc * 10 + (c.toNat - 48)) 0

/-- Parse a numeric identifier (major/minor/patch): digits only, no leading
zero unless the identifier is exactly `0`, must fit in a `u64`. -/
def parseNumId (cs : List Char) : Option (Nat × List Char) :=
  let ds := cs.takeWhile isDigitC
  let rest := cs.dropWhile isDigitC
  match ds with
  | [] => none
  | [c] => some (c.toNat - 48, rest)
  | c :: _ :: _ =>
    if c = '0' then none
    else if digitsVal ds < 18446744073709551616 then some (digitsVal ds, rest)
    else none

/-- Take one nonempty run of identifier characters. -/
def parseIdentChunk (cs : List Char) : Option (List Char × List Char) :=
  match cs.takeWhile isIdentC with
  | [] => none
  | ds => some (ds, cs.dropWhile isIdentC)

/-- A pre-release identifier is invalid when it is all digits with a leading
zero (and longer than one digit). -/
def validPreId (s : List Char) : Bool :=
  !(s.all isDigitC && decide (1 < s.length) && s.head? == some '0')

/-- Build identifiers have no leading-zero restriction. -/
def validBuildId (_s : List Char) : Bool := true

/-- Parse dot-separated identifiers (fuelled recursion; the fuel passed by
callers always exceeds the input length, so it never runs out). -/
def parseDotIds (valid : List Char → Bool) : Nat → List Char → Option (List (List Char) × List Char)
  | 0, _ => none
  | fuel + 1, cs =>
    match parseIdentChunk cs with
    | none => none
    | some (idc, rest) =>
      if valid idc then
        match rest with
        | '.' :: rest2 =>
          match parseDotIds valid fuel rest2 with
          | none => none
          | some (ids, rest3) => some (idc :: ids, rest3)
        | _ => some ([idc], rest)
      else none

/-- A parsed semantic version: `major.minor.patch` with pre-release and
build-metadata identifier lists (empty list = absent). -/
structure Version where
  major : Nat
  minor : Nat
  patch : Nat
  pre : List (List Char)
  build : List (List Char)
deriving DecidableEq

/-- `semver::Version::parse`: strict `major.minor.patch[-pre][+build]`,
nothing before or after. -/
def parseSemver (cs : List Char) : Option Version :=
  match parseNumId cs with
  | none => none
  | some (major, r1) =>
    match r1 with
    | '.' :: r2 =>
      match parseNumId r2 with
      | none => none
      | some (minor, r3) =>
        match r3 with
        | '.' :: r4 =>
          match parseNumId r4 with
          | none => none
          | some (patch, r5) =>
            match r5 with
            | [] => some ⟨major, minor, patch, [], []⟩
            | '-' :: r6 =>
              match parseDotIds validPreId (r6.length + 1) r6 with
              | none => none
              | some (pre, r7) =>
                match r7 with
                | [] => some ⟨major, minor, patch, pre, []⟩
                | '+' :: r8 =>
                  match parseDotIds validBuildId (r8.length + 1) r8 with
                  | none => none
                  | some (build, r9) =>
                    match r9 with
                    | [] => some ⟨major, minor, patch, pre, build⟩
                    | _ => none
                | _ => none
            | '+' :: r6 =>
              match parseDotIds validBuildId (r6.length + 1) r6 with
              | none => none
              | some (build, r7) =>
                match r7 with
                | [] => some ⟨major, minor, patch, [], build⟩
                | _ => none
            | _ => none
        | _ => none
    | _ => none

/-- Character comparison (Rust compares identifier bytes; on ASCII
identifier characters byte order and code-point order agree). -/
def cmpChar (a b : Char) : Ordering := cmpLin a.toNat b.toNat

/-- Pre-release identifier comparison (`Ord for Prerelease`, per element):
all-numeric identifiers compare numerically (no leading zeros, so by length
then lexicographically); numeric sorts below alphanumeric; alphanumeric
identifiers compare lexicographically. -/
def cmpPreIdent (a b : List Char) : Ordering :=
  match a.all isDigitC, b.all isDigitC with
  | true, true => cmpThen (cmpOn cmpLin List.length) (cmpList cmpChar) a b
  | true, false => .lt
  | false, true => .gt
  | false, false => cmpList cmpChar a b

/-- Pre-release comparison (`Ord for Prerelease`): absence of a pre-release
compares above any pre-release; otherwise identifier-by-identifier, a
shorter identifier list being less when it is a strict front segment. -/
def cmpPre : List (List Char) → List (List Char) → Ordering
  | [], [] => .eq
  | [], _ :: _ => .gt
  | _ :: _, [] => .lt
  | a :: as, b :: bs => cmpList cmpPreIdent (a :: as) (b :: bs)

/-- Build identifier comparison (`Ord for BuildMetadata`, per element):
all-numeric identifiers (leading zeros allowed) compare by numeric value —
leading zeros stripped, then length-then-lexicographic — with ties broken
by the original length; numeric sorts below alphanumeric; alphanumeric
identifiers compare lexicographically. -/
def cmpBuildIdent (a b : List Char) : Ordering :=
  match a.all isDigitC, b.all isDigitC with
  | true, true =>
    cmpThen
      (cmpOn (cmpThen (cmpOn cmpLin List.length) (cmpList cmpChar))
        (fun l => l.dropWhile (fun c => c = '0')))
      (cmpOn cmpLin List.length) a b
  | true, false => .lt
  | false, true => .gt
  | false, false => cmpList cmpChar a b

/-- Build-metadata comparison: identifier lists compared lexicographically;
the empty build metadata is the least (it is an empty identifier list). -/
def cmpBuild (a b : List (List Char)) : Ordering := cmpList cmpBuildIdent a b

/-- Semver-spec precedence: major, minor, patch, then pre-release; build
metadata ignored. This is the "standard semantic-version ordering" of the
specification. -/
def cmpStd (a b : Version) : Ordering :=
  cmpThen (cmpOn cmpLin Version.major)
    (cmpThen (cmpOn cmpLin Version.minor)
      (cmpThen (cmpOn cmpLin Version.patch)
        (cmpOn cmpPre Version.pre))) a b

/-- `Ord for semver::Version`: precedence, then build metadata (the crate's
total order, used by the `max_by` call in `get_commits_after_latest_tag`). -/
def cmpVersion (a b : Version) : Ordering :=
  cmpThen cmpStd (cmpOn cmpBuild Version.build) a b

/-! ## Git data model -/

/-- A commit record: identifier (canonical hex form of the oid), message
(`None` models a non-UTF-8 message, as `git2::Commit::message`), commit
time, and parent identifiers. -/
structure Commit where
  id : String
  message : Option String
  time : Int
  parents : List String
deriving DecidableEq

/-- A `git2::Reference`: full name and shorthand (absent when non-UTF-8),
direct target oid, symbolic target, and the commit the reference peels to
(`peelTo = none` models a failing `peel_to_commit`). -/
structure GitReference where
  name : Option String
  shorthand : Option String
  target : Option String
  symbolicTarget : Option String
  peelTo : Option String
deriving DecidableEq

/-- The repository as the resolver sees it: the commit object store, the
reference list (in enumeration order), the remote-advertised default branch
(`find_remote("origin")` + `default_branch()` + UTF-8 conversion collapsed
into one `Option`), the HEAD reference (`repo.head()`), and the merge-base
oracle (libgit2's `git_merge_base`, returning an error both when no common
ancestor exists and on any other failure). -/
structure Repo where
  commits : List Commit
  refs : List GitReference
  originDefault : Option String
  headRef : Option GitReference
  mergeBase : String → String → Except String String

/-- Object-store lookup by commit id (`repo.find_commit`). -/
def lookupCommit (repo : Repo) (oid : String) : Option Commit :=
  repo.commits.find? (fun c => c.id == oid)

/-- Exact-name reference lookup (`repo.find_reference`). -/
def find_reference (repo : Repo) (name : String) : Option GitReference :=
  repo.refs.find? (fun r => r.name == some name)

/-- List prefix test on characters (structural stand-in for byte-wise
`str::starts_with`). -/
def hasLead : List Char → List Char → Bool
  | [], _ => true
  | _ :: _, [] => false
  | p :: ps, c :: cs => p == c && hasLead ps cs

/-- The references matching the glob `refs/tags/*`. -/
def tagReferences (repo : Repo) : List GitReference :=
  repo.refs.filter (fun r =>
    match r.name with
    | some n => hasLead "refs/tags/".data n.data
    | none => false)

/-- Strip one optional leading `v` (`name.strip_prefix('v').unwrap_or(name)`). -/
def stripV (cs : List Char) : List Char :=
  match cs with
  | [] => []
  | c :: rest => if c = 'v' then rest else c :: rest

/-- One iteration of the tag scan: a reference contributes a candidate when
it has a shorthand whose v-stripped form parses as a semantic version;
otherwise it is skipped. -/
def tagCandidate (r : GitReference) : Option (Version × GitReference) :=
  match r.shorthand with
  | none => none
  | some name => (parseSemver (stripV name.data)).map (fun v => (v, r))

/-- The tag-candidate list, in reference enumeration order. -/
def tagCandidates (repo : Repo) : List (Version × GitReference) :=
  (tagReferences repo).filterMap tagCandidate

/-- The fold underlying `Iterator::max_by`: `cmp::max_by` keeps the
accumulator only when it compares strictly greater, so ties go to the later
element. -/
def pickMax (acc : Version × GitReference) :
    List (Version × GitReference) → Version × GitReference
  | [] => acc
  | y :: ys => pickMax (if cmpVersion acc.1 y.1 = .gt then acc else y) ys

/-- `tags.into_iter().max_by(|(a, _), (b, _)| a.cmp(b))`. -/
def maxByVersion : List (Version × GitReference) → Option (Version × GitReference)
  | [] => none
  | x :: xs => some (pickMax x xs)

/-! ## Default branch resolution -/

/-- `sym.strip_prefix("refs/remotes/origin/").unwrap_or(sym)`. -/
def stripRemOrigin (sym : String) : String :=
  if hasLead "refs/remotes/origin/".data sym.data then ⟨sym.data.drop 20⟩ else sym

/-- `name.strip_prefix("refs/heads/")` (an `Option`: strategy 2 gives up on
a non-`refs/heads/` advertised name). -/
def stripHeads (name : String) : Option String :=
  if hasLead "refs/heads/".data name.data then some ⟨name.data.drop 11⟩ else none

/-- Strategy 1: the `refs/remotes/origin/HEAD` symbolic reference, trying
the equivalent local branch first, then the remote-tracking reference. -/
def resolve_from_origin_head (repo : Repo) : Option (String × String) :=
  match find_reference repo "refs/remotes/origin/HEAD" with
  | none => none
  | some origin_head =>
    match origin_head.symbolicTarget with
    | none => none
    | some sym =>
      let local_heads := "refs/heads/" ++ stripRemOrigin sym
      match (find_reference repo local_heads).bind GitReference.target with
      | some oid => some (local_heads, oid)
      | none =>
        match (find_reference repo sym).bind GitReference.target with
        | some oid => some (sym, oid)
        | none => none

/-- Strategy 2: the remote-advertised default branch, tried as-is first,
then as the constructed remote-tracking reference. -/
def resolve_from_remote_default (repo : Repo) : Option (String × String) :=
  match repo.originDefault with
  | none => none
  | some name =>
    match (find_reference repo name).bind GitReference.target with
    | some oid => some (name, oid)
    | none =>
      match stripHeads name with
      | none => none
      | some suffix =>
        let remote_tracking := "refs/remotes/origin/" ++ suffix
        match (find_reference repo remote_tracking).bind GitReference.target with
        | some oid => some (remote_tracking, oid)
        | none => none

/-- The three-strategy default-branch resolution; only the final HEAD
fallback can surface an error. -/
def resolve_default_base (repo : Repo) : Except String (String × String) :=
  match resolve_from_origin_head repo with
  | some result => .ok result
  | none =>
    match resolve_from_remote_default repo with
    | some result => .ok result
    | none =>
      match repo.headRef with
      | none => .error "repository has no HEAD"
      | some head =>
        match head.target with
        | none => .error "HEAD has no target"
        | some base_oid => .ok (head.name.getD "HEAD", base_oid)

/-! ## Reachability and the revwalk -/

/-- The parents of a commit that exist in the object store (edges of the
history graph walked by the revwalk). -/
def parentsIn (repo : Repo) (o : String) : List String :=
  match lookupCommit repo o with
  | some c => c.parents.filter (fun p => (lookupCommit repo p).isSome)
  | none => []

/-- One saturation step of the ancestor closure. -/
def closureStep (repo : Repo) (s : Finset String) : Finset String :=
  s ∪ s.biUnion (fun o => (parentsIn repo o).toFinset)

/-- The set of commits reachable from `root` (ancestors including `root`),
computed by saturating parent edges; `commits.length` iterations suffice to
reach the fixed point. -/
def reachSet (repo : Repo) (root : String) : Finset String :=
  (closureStep repo)^[repo.commits.length] {root}

/-- Specification-side parent edge: `b` is a stored parent of the stored
commit `a`. -/
def ParentEdge (repo : Repo) (a b : String) : Prop :=
  ∃ ca, lookupCommit repo a = some ca ∧ b ∈ ca.parents ∧ (lookupCommit repo b).isSome

/-- Specification-side reachability: reflexive-transitive closure of the
parent relation. -/
def Reaches (repo : Repo) : String → String → Prop :=
  Relation.ReflTransGen (ParentEdge repo)

/-- Descending commit-time order used by the walk. -/
def timeDescOrd (a b : Commit) : Prop := b.time ≤ a.time

instance : DecidableRel timeDescOrd := fun a b => Int.decLe b.time a.time

instance : IsTotal Commit timeDescOrd := ⟨fun a b => le_total b.time a.time⟩

instance : IsTrans Commit timeDescOrd := ⟨fun _ _ _ h1 h2 => le_trans h2 h1⟩

/-- The libgit2 revwalk, modelled from its documented contract: pushing
`base` and hiding `hide` yields every stored commit reachable from `base`
and not reachable from `hide`, sorted by commit time, newest first
(`git2::Sort::TIME`); pushing an unknown oid fails. -/
def revwalkTimeDesc (repo : Repo) (base : String) (hide : Option String) :
    Except String (List Commit) :=
  match lookupCommit repo base with
  | none => .error "could not push base OID"
  | some _ =>
    let hidden : Finset String :=
      match hide with
      | some h => reachSet repo h
      | none => ∅
    let sel := repo.commits.filter
      (fun c => decide (c.id ∈ reachSet repo base) && !decide (c.id ∈ hidden))
    .ok (List.insertionSort timeDescOrd sel)

/-! ## The range resolver and the pure helpers -/

/-- `get_commits_after_latest_tag`: select the maximal semver tag, peel it,
resolve the default base, take the merge-base (any failure treated as "no
merge-base"), and walk the base history hiding the merge-base. -/
def get_commits_after_latest_tag (repo : Repo) :
    Except String (GitReference × List Commit) :=
  match maxByVersion (tagCandidates repo) with
  | none => .error "no semver tags found"
  | some (_latest_ver, latest_tag_ref) =>
    match latest_tag_ref.peelTo with
    | none => .error ("could not peel tag " ++ (latest_tag_ref.name.getD "?"))
    | some tag_oid =>
      match resolve_default_base repo with
      | .error e => .error e
      | .ok (_base_name, base_oid) =>
        let merge_base := (repo.mergeBase tag_oid base_oid).toOption
        match revwalkTimeDesc repo base_oid merge_base with
        | .error e => .error e
        | .ok commits => .ok (latest_tag_ref, commits)

/-- Index of the first newline character (`str::find('\n')`). -/
def findNewline : List Char → Option Nat
  | [] => none
  | c :: rest => if c = '\n' then some 0 else (findNewline rest).map (· + 1)

/-- `get_short_message`: the message up to (excluding) the first newline,
or the whole message when there is none; a missing message defaults to
the empty string. -/
def get_short_message (c : Commit) : String :=
  let full := c.message.getD ""
  match findNewline full.data with
  | some pos => ⟨full.data.take pos⟩
  | none => full

/-- `get_abbreviated_hash`: the first 7 characters of the canonical hex
form when it is longer than 7, otherwise the whole string (hex identifiers
are ASCII, so byte and character counts agree). -/
def get_abbreviated_hash (hash : String) : String :=
  if 7 < hash.data.length then ⟨hash.data.take 7⟩ else hash

/-! ## Concrete repositories used to instantiate the theorems -/

/-- Commit `aaa`, the oldest commit of the example history. -/
def exC1 : Commit := ⟨"aaa", some "commit 1", 1, []⟩

/-- Commit `bbb`, child of `aaa`. -/
def exC2 : Commit := ⟨"bbb", some "commit 2", 2, ["aaa"]⟩

/-- Commit `ccc`, child of `bbb`, the branch tip. -/
def exC3 : Commit := ⟨"ccc", some "commit 3", 3, ["bbb"]⟩

/-- Lightweight tag `1.0.0` on `aaa`. -/
def exTag100 : GitReference :=
  ⟨some "refs/tags/1.0.0", some "1.0.0", some "aaa", none, some "aaa"⟩

/-- Lightweight tag `1.1.0` on `bbb`. -/
def exTag110 : GitReference :=
  ⟨some "refs/tags/1.1.0", some "1.1.0", some "bbb", none, some "bbb"⟩

/-- A tag that does not parse as a semantic version. -/
def exTagBad : GitReference :=
  ⟨some "refs/tags/latest", some "latest", some "aaa", none, some "aaa"⟩

/-- The local `main` branch at `ccc`. -/
def exHead : GitReference :=
  ⟨some "refs/heads/main", some "main", some "ccc", none, some "ccc"⟩

/-- Example repository: `aaa ← bbb ← ccc`, tags `1.0.0`@`aaa` and
`1.1.0`@`bbb`, HEAD at `ccc`; the merge-base of `bbb` and `ccc` is `bbb`. -/
def exRepo : Repo :=
  ⟨[exC1, exC2, exC3], [exHead, exTag100, exTag110], none, some exHead,
    fun t b => if t == "bbb" && b == "ccc" then .ok "bbb" else .error "no merge base"⟩

/-- The example repository with a non-semver tag inserted in the scan. -/
def exRepoBad : Repo :=
  ⟨[exC1, exC2, exC3], [exHead, exTag100, exTagBad, exTag110], none, some exHead,
    fun t b => if t == "bbb" && b == "ccc" then .ok "bbb" else .error "no merge base"⟩

/-- The example repository with no tag references at all. -/
def exRepoNoTags : Repo :=
  ⟨[exC1, exC2, exC3], [exHead], none, some exHead, fun _ _ => .error "no merge base"⟩

/-- The example repository whose merge-base oracle always fails. -/
def exRepoMBFail : Repo :=
  ⟨[exC1, exC2, exC3], [exHead, exTag110], none, some exHead,
    fun _ _ => .error "unexpected merge base failure"⟩

/-- Tag reference `refs/tags/1.0.0` (tie counterexample, scanned first). -/
def tieRefA : GitReference :=
  ⟨some "refs/tags/1.0.0", some "1.0.0", some "aaa", none, some "aaa"⟩

/-- Tag reference `refs/tags/v1.0.0` (tie counterexample, scanned second;
parses to the same version `1.0.0`). -/
def tieRefB : GitReference :=
  ⟨some "refs/tags/v1.0.0", some "v1.0.0", some "bbb", none, some "bbb"⟩

/-- Repository with two distinct tag references parsing to equal semantic
versions, in scan order `1.0.0` then `v1.0.0`. -/
def tieRepo : Repo :=
  ⟨[exC1, exC2, exC3], [exHead, tieRefA, tieRefB], none, some exHead,
    fun _ _ => .error "no merge base"⟩

/-- Tag named `v1.0.0`: parses (to `1.0.0`) after the `v` strip. -/
def vRef : GitReference :=
  ⟨some "refs/tags/v1.0.0", some "v1.0.0", some "aaa", none, some "aaa"⟩

/-- Tag named `vv1.0.0` (that is, `"v" ++ "v1.0.0"`): after one `v` strip
the remainder `v1.0.0` does not parse, so the tag is skipped. -/
def vvRef : GitReference :=
  ⟨some "refs/tags/vv1.0.0", some "vv1.0.0", some "aaa", none, some "aaa"⟩

/-- The symbolic `refs/remotes/origin/HEAD` reference pointing at
`refs/remotes/origin/main`. -/
def exOriginHead : GitReference :=
  ⟨some "refs/remotes/origin/HEAD", some "origin/HEAD", none,
    some "refs/remotes/origin/main", none⟩

/-- The remote-tracking branch `refs/remotes/origin/main` at `bbb`. -/
def exRemoteMain : GitReference :=
  ⟨some "refs/remotes/origin/main", some "origin/main", some "bbb", none, some "bbb"⟩

/-- Repository where strategy 1 finds `origin/HEAD` and the local branch of
the same short name exists: the local branch must win. -/
def exRepoS1 : Repo :=
  ⟨[exC1, exC2, exC3], [exOriginHead, exHead, exRemoteMain], none, none,
    fun _ _ => .error "no merge base"⟩

/-- Repository without `origin/HEAD` where the remote advertises
`refs/heads/main`, which only resolves as the remote-tracking branch. -/
def exRepoS2 : Repo :=
  ⟨[exC1, exC2, exC3], [exRemoteMain], some "refs/heads/main", none,
    fun _ _ => .error "no merge base"⟩

/-- Repository where both remote strategies fail and only HEAD resolves. -/
def exRepoS3 : Repo :=
  ⟨[exC1, exC2, exC3], [exHead], none, some exHead, fun _ _ => .error "no merge base"⟩

/-- A commit with a multi-line message. -/
def msgCommit : Commit := ⟨"mmm", some "First line\nSecond line", 0, []⟩

/-! ## Lawfulness of the comparison functions -/

theorem LawfulCmp.eq_symm {α : Type} {f : α → α → Ordering} (hf : LawfulCmp f)
    {a b : α} (h : f a b = .eq) : f b a = .eq := by
  have hs := hf.symm a b
  rw [h] at hs
  cases hba : f b a <;> rw [hba] at hs <;> simp [Ordering.swap] at hs

theorem LawfulCmp.lt_to_gt {α : Type} {f : α → α → Ordering} (hf : LawfulCmp f)
    {a b : α} (h : f a b = .lt) : f b a = .gt := by
  have hs := hf.symm a b
  rw [h] at hs
  cases hba : f b a <;> rw [hba] at hs <;> simp [Ordering.swap] at hs

theorem LawfulCmp.gt_to_lt {α : Type} {f : α → α → Ordering} (hf : LawfulCmp f)
    {a b : α} (h : f a b = .gt) : f b a = .lt := by
  have hs := hf.symm a b
  rw [h] at hs
  cases hba : f b a <;> rw [hba] at hs <;> simp [Ordering.swap] at hs

theorem LawfulCmp.congrR {α : Type} {f : α → α → Ordering} (hf : LawfulCmp f)
    {b c : α} (h : f b c = .eq) (a : α) : f a b = f a c := by
  have h1 := hf.congrL c b (hf.eq_symm h) a
  have h2 := hf.symm a b
  have h3 := hf.symm a c
  rw [h2, h3, h1]

theorem LawfulCmp.le_trans {α : Type} {f : α → α → Ordering} (hf : LawfulCmp f)
    {a b c : α} (h1 : f a b ≠ .gt) (h2 : f b c ≠ .gt) : f a c ≠ .gt := by
  cases hab : f a b with
  | gt => exact absurd hab h1
  | eq => rw [hf.congrL a b hab c]; exact h2
  | lt =>
    cases hbc : f b c with
    | gt => exact absurd hbc h2
    | eq => rw [← hf.congrR hbc a, hab]; simp
    | lt => rw [hf.lt_trans a b c hab hbc]; simp

theorem cmpLin_eq_iff {α : Type} [LinearOrder α] {a b : α} :
    cmpLin a b = .eq ↔ a = b := by
  unfold cmpLin
  split_ifs with h1 h2 <;> simp_all
  exact ne_of_lt h1

theorem cmpLin_lt_iff {α : Type} [LinearOrder α] {a b : α} :
    cmpLin a b = .lt ↔ a < b := by
  unfold cmpLin
  split_ifs with h1 h2 <;> simp_all

theorem lawful_cmpLin {α : Type} [LinearOrder α] : LawfulCmp (cmpLin (α := α)) where
  refl a := by simp [cmpLin]
  symm a b := by
    rcases lt_trichotomy a b with h | h | h
    · rw [cmpLin_lt_iff.mpr h]
      rw [show cmpLin b a = .gt by
        unfold cmpLin
        rw [if_neg (asymm h), if_neg (ne_of_gt h)]]
      rfl
    · subst h; simp [cmpLin, Ordering.swap]
    · rw [cmpLin_lt_iff.mpr h]
      rw [show cmpLin a b = .gt by
        unfold cmpLin
        rw [if_neg (asymm h), if_neg (ne_of_gt h)]]
      rfl
  congrL a b h c := by rw [cmpLin_eq_iff.mp h]
  lt_trans a b c h1 h2 :=
    cmpLin_lt_iff.mpr (lt_trans (cmpLin_lt_iff.mp h1) (cmpLin_lt_iff.mp h2))

theorem lawful_cmpOn {α β : Type} {f : β → β → Ordering} (hf : LawfulCmp f)
    (p : α → β) : LawfulCmp (cmpOn f p) where
  refl a := hf.refl (p a)
  symm a b := hf.symm (p a) (p b)
  congrL a b h c := hf.congrL (p a) (p b) h (p c)
  lt_trans a b c h1 h2 := hf.lt_trans (p a) (p b) (p c) h1 h2

theorem lawful_cmpThen {α : Type} {f g : α → α → Ordering}
    (hf : LawfulCmp f) (hg : LawfulCmp g) : LawfulCmp (cmpThen f g) where
  refl a := by simp [cmpThen, hf.refl, hg.refl]
  symm a b := by
    unfold cmpThen
    cases hab : f a b with
    | lt => rw [hf.lt_to_gt hab]; rfl
    | gt => rw [hf.gt_to_lt hab]; rfl
    | eq => rw [hf.eq_symm hab]; exact hg.symm a b
  congrL a b h c := by
    unfold cmpThen at h ⊢
    cases hab : f a b <;> rw [hab] at h
    · exact absurd h (by simp)
    · rw [hf.congrL a b hab c]
      cases f b c
      · rfl
      · exact hg.congrL a b h c
      · rfl
    · exact absurd h (by simp)
  lt_trans a b c h1 h2 := by
    unfold cmpThen at h1 h2 ⊢
    cases hab : f a b <;> rw [hab] at h1
    · cases hbc : f b c <;> rw [hbc] at h2
      · rw [hf.lt_trans a b c hab hbc]
      · rw [← hf.congrR hbc a, hab]
      · exact absurd h2 (by simp)
    · cases hbc : f b c <;> rw [hbc] at h2
      · rw [hf.congrL a b hab c, hbc]
      · rw [hf.congrL a b hab c, hbc]
        exact hg.lt_trans a b c h1 h2
      · exact absurd h2 (by simp)
    · exact absurd h1 (by simp)

theorem cmpList_refl {α : Type} {f : α → α → Ordering} (hf : LawfulCmp f) :
    ∀ l : List α, cmpList f l l = .eq
  | [] => rfl
  | a :: as => by simp [cmpList, hf.refl a, cmpList_refl hf as]

theorem cmpList_symm {α : Type} {f : α → α → Ordering} (hf : LawfulCmp f) :
    ∀ a b : List α, cmpList f a b = (cmpList f b a).swap
  | [], [] => rfl
  | [], _ :: _ => rfl
  | _ :: _, [] => rfl
  | a :: as, b :: bs => by
    unfold cmpList
    cases hab : f a b with
    | lt => rw [hf.lt_to_gt hab]; rfl
    | gt => rw [hf.gt_to_lt hab]; rfl
    | eq => rw [hf.eq_symm hab]; exact cmpList_symm hf as bs

theorem cmpList_congrL {α : Type} {f : α → α → Ordering} (hf : LawfulCmp f) :
    ∀ a b : List α, cmpList f a b = .eq → ∀ c : List α, cmpList f a c = cmpList f b c
  | [], [], _, _ => rfl
  | [], _ :: _, h, _ => absurd h (by simp [cmpList])
  | _ :: _, [], h, _ => absurd h (by simp [cmpList])
  | a :: as, b :: bs, h, c => by
    unfold cmpList at h
    cases hab : f a b <;> rw [hab] at h
    · exact absurd h (by simp)
    · cases c with
      | nil => rfl
      | cons c cs =>
        unfold cmpList
        rw [hf.congrL a b hab c]
        cases f b c
        · rfl
        · exact cmpList_congrL hf as bs h cs
        · rfl
    · exact absurd h (by simp)

theorem cmpList_lt_trans {α : Type} {f : α → α → Ordering} (hf : LawfulCmp f) :
    ∀ a b c : List α, cmpList f a b = .lt → cmpList f b c = .lt → cmpList f a c = .lt
  | [], [], _, h1, _ => absurd h1 (by simp [cmpList])
  | [], _ :: _, [], _, h2 => absurd h2 (by simp [cmpList])
  | [], _ :: _, _ :: _, _, _ => rfl
  | _ :: _, [], _, h1, _ => absurd h1 (by simp [cmpList])
  | _ :: _, _ :: _, [], _, h2 => absurd h2 (by simp [cmpList])
  | a :: as, b :: bs, c :: cs, h1, h2 => by
    unfold cmpList at h1 h2 ⊢
    cases hab : f a b <;> rw [hab] at h1
    · cases hbc : f b c <;> rw [hbc] at h2
      · rw [hf.lt_trans a b c hab hbc]
      · rw [← hf.congrR hbc a, hab]
      · exact absurd h2 (by simp)
    · cases hbc : f b c <;> rw [hbc] at h2
      · rw [hf.congrL a b hab c, hbc]
      · rw [hf.congrL a b hab c, hbc]
        exact cmpList_lt_trans hf as bs cs h1 h2
      · exact absurd h2 (by simp)
    · exact absurd h1 (by simp)

theorem lawful_cmpList {α : Type} {f : α → α → Ordering} (hf : LawfulCmp f) :
    LawfulCmp (cmpList f) :=
  ⟨cmpList_refl hf, cmpList_symm hf, cmpList_congrL hf, cmpList_lt_trans hf⟩

theorem lawful_cmpChar : LawfulCmp cmpChar :=
  lawful_cmpOn lawful_cmpLin Char.toNat

theorem lawful_cmpNumeric :
    LawfulCmp (cmpThen (cmpOn cmpLin List.length) (cmpList cmpChar)) :=
  lawful_cmpThen (lawful_cmpOn lawful_cmpLin List.length)
    (lawful_cmpList lawful_cmpChar)

theorem cmpPreIdent_tt {a b : List Char} (ha : a.all isDigitC = true)
    (hb : b.all isDigitC = true) :
    cmpPreIdent a b = cmpThen (cmpOn cmpLin List.length) (cmpList cmpChar) a b := by
  simp [cmpPreIdent, ha, hb]

theorem cmpPreIdent_tf {a b : List Char} (ha : a.all isDigitC = true)
    (hb : b.all isDigitC = false) : cmpPreIdent a b = .lt := by
  simp [cmpPreIdent, ha, hb]

theorem cmpPreIdent_ft {a b : List Char} (ha : a.all isDigitC = false)
    (hb : b.all isDigitC = true) : cmpPreIdent a b = .gt := by
  simp [cmpPreIdent, ha, hb]

theorem cmpPreIdent_ff {a b : List Char} (ha : a.all isDigitC = false)
    (hb : b.all isDigitC = false) : cmpPreIdent a b = cmpList cmpChar a b := by
  simp [cmpPreIdent, ha, hb]

theorem lawful_cmpPreIdent : LawfulCmp cmpPreIdent := by
  constructor
  · intro a
    cases ha : a.all isDigitC
    · rw [cmpPreIdent_ff ha ha]; exact (lawful_cmpList lawful_cmpChar).refl a
    · rw [cmpPreIdent_tt ha ha]; exact lawful_cmpNumeric.refl a
  · intro a b
    cases ha : a.all isDigitC <;> cases hb : b.all isDigitC
    · rw [cmpPreIdent_ff ha hb, cmpPreIdent_ff hb ha]
      exact (lawful_cmpList lawful_cmpChar).symm a b
    · rw [cmpPreIdent_ft ha hb, cmpPreIdent_tf hb ha]; rfl
    · rw [cmpPreIdent_tf ha hb, cmpPreIdent_ft hb ha]; rfl
    · rw [cmpPreIdent_tt ha hb, cmpPreIdent_tt hb ha]
      exact lawful_cmpNumeric.symm a b
  · intro a b h c
    cases ha : a.all isDigitC <;> cases hb : b.all isDigitC
    · rw [cmpPreIdent_ff ha hb] at h
      cases hc : c.all isDigitC
      · rw [cmpPreIdent_ff ha hc, cmpPreIdent_ff hb hc]
        exact (lawful_cmpList lawful_cmpChar).congrL a b h c
      · rw [cmpPreIdent_ft ha hc, cmpPreIdent_ft hb hc]
    · rw [cmpPreIdent_ft ha hb] at h
      exact absurd h (by simp)
    · rw [cmpPreIdent_tf ha hb] at h
      exact absurd h (by simp)
    · rw [cmpPreIdent_tt ha hb] at h
      cases hc : c.all isDigitC
      · rw [cmpPreIdent_tf ha hc, cmpPreIdent_tf hb hc]
      · rw [cmpPreIdent_tt ha hc, cmpPreIdent_tt hb hc]
        exact lawful_cmpNumeric.congrL a b h c
  · intro a b c h1 h2
    cases ha : a.all isDigitC <;> cases hb : b.all isDigitC <;>
      cases hc : c.all isDigitC
    · rw [cmpPreIdent_ff ha hb] at h1
      rw [cmpPreIdent_ff hb hc] at h2
      rw [cmpPreIdent_ff ha hc]
      exact (lawful_cmpList lawful_cmpChar).lt_trans a b c h1 h2
    · rw [cmpPreIdent_ft hb hc] at h2
      exact absurd h2 (by simp)
    · rw [cmpPreIdent_ft ha hb] at h1
      exact absurd h1 (by simp)
    · rw [cmpPreIdent_ft ha hb] at h1
      exact absurd h1 (by simp)
    · rw [cmpPreIdent_tf ha hc]
    · rw [cmpPreIdent_ft hb hc] at h2
      exact absurd h2 (by simp)
    · rw [cmpPreIdent_tf ha hc]
    · rw [cmpPreIdent_tt ha hb] at h1
      rw [cmpPreIdent_tt hb hc] at h2
      rw [cmpPreIdent_tt ha hc]
      exact lawful_cmpNumeric.lt_trans a b c h1 h2

theorem lawful_cmpPre : LawfulCmp cmpPre := by
  constructor
  · intro a
    cases a with
    | nil => rfl
    | cons x xs => exact (lawful_cmpList lawful_cmpPreIdent).refl (x :: xs)
  · intro a b
    cases a with
    | nil => cases b with
      | nil => rfl
      | cons y ys => rfl
    | cons x xs => cases b with
      | nil => rfl
      | cons y ys => exact (lawful_cmpList lawful_cmpPreIdent).symm (x :: xs) (y :: ys)
  · intro a b h c
    cases a with
    | nil => cases b with
      | nil => rfl
      | cons y ys => exact absurd h (by simp [cmpPre])
    | cons x xs => cases b with
      | nil => exact absurd h (by simp [cmpPre])
      | cons y ys =>
        cases c with
        | nil => rfl
        | cons z zs =>
          exact (lawful_cmpList lawful_cmpPreIdent).congrL (x :: xs) (y :: ys) h (z :: zs)
  · intro a b c h1 h2
    cases a with
    | nil => cases b with
      | nil => exact absurd h1 (by simp [cmpPre])
      | cons y ys => exact absurd h1 (by simp [cmpPre])
    | cons x xs => cases b with
      | nil =>
        cases c with
        | nil => exact absurd h2 (by simp [cmpPre])
        | cons z zs => exact absurd h2 (by simp [cmpPre])
      | cons y ys =>
        cases c with
        | nil => rfl
        | cons z zs =>
          exact (lawful_cmpList lawful_cmpPreIdent).lt_trans
            (x :: xs) (y :: ys) (z :: zs) h1 h2

theorem lawful_cmpBuildNumeric :
    LawfulCmp (cmpThen
      (cmpOn (cmpThen (cmpOn cmpLin List.length) (cmpList cmpChar))
        (fun l : List Char => l.dropWhile (fun c => c = '0')))
      (cmpOn cmpLin List.length)) :=
  lawful_cmpThen
    (lawful_cmpOn lawful_cmpNumeric (fun l : List Char => l.dropWhile (fun c => c = '0')))
    (lawful_cmpOn lawful_cmpLin List.length)

theorem cmpBuildIdent_tt {a b : List Char} (ha : a.all isDigitC = true)
    (hb : b.all isDigitC = true) :
    cmpBuildIdent a b = cmpThen
      (cmpOn (cmpThen (cmpOn cmpLin List.length) (cmpList cmpChar))
        (fun l : List Char => l.dropWhile (fun c => c = '0')))
      (cmpOn cmpLin List.length) a b := by
  simp [cmpBuildIdent, ha, hb]

theorem cmpBuildIdent_tf {a b : List Char} (ha : a.all isDigitC = true)
    (hb : b.all isDigitC = false) : cmpBuildIdent a b = .lt := by
  simp [cmpBuildIdent, ha, hb]

theorem cmpBuildIdent_ft {a b : List Char} (ha : a.all isDigitC = false)
    (hb : b.all isDigitC = true) : cmpBuildIdent a b = .gt := by
  simp [cmpBuildIdent, ha, hb]

theorem cmpBuildIdent_ff {a b : List Char} (ha : a.all isDigitC = false)
    (hb : b.all isDigitC = false) : cmpBuildIdent a b = cmpList cmpChar a b := by
  simp [cmpBuildIdent, ha, hb]

theorem lawful_cmpBuildIdent : LawfulCmp cmpBuildIdent := by
  constructor
  · intro a
    cases ha : a.all isDigitC
    · rw [cmpBuildIdent_ff ha ha]; exact (lawful_cmpList lawful_cmpChar).refl a
    · rw [cmpBuildIdent_tt ha ha]; exact lawful_cmpBuildNumeric.refl a
  · intro a b
    cases ha : a.all isDigitC <;> cases hb : b.all isDigitC
    · rw [cmpBuildIdent_ff ha hb, cmpBuildIdent_ff hb ha]
      exact (lawful_cmpList lawful_cmpChar).symm a b
    · rw [cmpBuildIdent_ft ha hb, cmpBuildIdent_tf hb ha]; rfl
    · rw [cmpBuildIdent_tf ha hb, cmpBuildIdent_ft hb ha]; rfl
    · rw [cmpBuildIdent_tt ha hb, cmpBuildIdent_tt hb ha]
      exact lawful_cmpBuildNumeric.symm a b
  · intro a b h c
    cases ha : a.all isDigitC <;> cases hb : b.all isDigitC
    · rw [cmpBuildIdent_ff ha hb] at h
      cases hc : c.all isDigitC
      · rw [cmpBuildIdent_ff ha hc, cmpBuildIdent_ff hb hc]
        exact (lawful_cmpList lawful_cmpChar).congrL a b h c
      · rw [cmpBuildIdent_ft ha hc, cmpBuildIdent_ft hb hc]
    · rw [cmpBuildIdent_ft ha hb] at h
      exact absurd h (by simp)
    · rw [cmpBuildIdent_tf ha hb] at h
      exact absurd h (by simp)
    · rw [cmpBuildIdent_tt ha hb] at h
      cases hc : c.all isDigitC
      · rw [cmpBuildIdent_tf ha hc, cmpBuildIdent_tf hb hc]
      · rw [cmpBuildIdent_tt ha hc, cmpBuildIdent_tt hb hc]
        exact lawful_cmpBuildNumeric.congrL a b h c
  · intro a b c h1 h2
    cases ha : a.all isDigitC <;> cases hb : b.all isDigitC <;>
      cases hc : c.all isDigitC
    · rw [cmpBuildIdent_ff ha hb] at h1
      rw [cmpBuildIdent_ff hb hc] at h2
      rw [cmpBuildIdent_ff ha hc]
      exact (lawful_cmpList lawful_cmpChar).lt_trans a b c h1 h2
    · rw [cmpBuildIdent_ft hb hc] at h2
      exact absurd h2 (by simp)
    · rw [cmpBuildIdent_ft ha hb] at h1
      exact absurd h1 (by simp)
    · rw [cmpBuildIdent_ft ha hb] at h1
      exact absurd h1 (by simp)
    · rw [cmpBuildIdent_tf ha hc]
    · rw [cmpBuildIdent_ft hb hc] at h2
      exact absurd h2 (by simp)
    · rw [cmpBuildIdent_tf ha hc]
    · rw [cmpBuildIdent_tt ha hb] at h1
      rw [cmpBuildIdent_tt hb hc] at h2
      rw [cmpBuildIdent_tt ha hc]
      exact lawful_cmpBuildNumeric.lt_trans a b c h1 h2

theorem lawful_cmpBuild : LawfulCmp cmpBuild :=
  lawful_cmpList lawful_cmpBuildIdent

theorem lawful_cmpStd : LawfulCmp cmpStd :=
  lawful_cmpThen (lawful_cmpOn lawful_cmpLin Version.major)
    (lawful_cmpThen (lawful_cmpOn lawful_cmpLin Version.minor)
      (lawful_cmpThen (lawful_cmpOn lawful_cmpLin Version.patch)
        (lawful_cmpOn lawful_cmpPre Version.pre)))

theorem lawful_cmpVersion : LawfulCmp cmpVersion :=
  lawful_cmpThen lawful_cmpStd (lawful_cmpOn lawful_cmpBuild Version.build)

/-- The crate's total order refines semver precedence: whenever the crate
comparison does not say `gt`, precedence does not either. -/
theorem cmpStd_ne_gt_of_cmpVersion {a b : Version} (h : cmpVersion a b ≠ .gt) :
    cmpStd a b ≠ .gt := by
  intro hstd
  exact h (by unfold cmpVersion cmpThen; rw [hstd])

/-! ## The `max_by` fold -/

theorem pickMax_cons (acc y : Version × GitReference)
    (ys : List (Version × GitReference)) :
    pickMax acc (y :: ys) =
      pickMax (if cmpVersion acc.1 y.1 = .gt then acc else y) ys := by
  simp [pickMax]

theorem pickMax_le :
    ∀ (xs : List (Version × GitReference)) (acc : Version × GitReference),
      ∀ q ∈ acc :: xs, cmpVersion q.1 (pickMax acc xs).1 ≠ .gt
  | [], acc => by
    intro q hq
    simp only [List.mem_singleton] at hq
    subst hq
    show cmpVersion q.1 (pickMax q []).1 ≠ .gt
    rw [show pickMax q [] = q from rfl, lawful_cmpVersion.refl q.1]
    simp
  | y :: ys, acc => by
    intro q hq
    simp only [List.mem_cons] at hq
    rw [pickMax_cons]
    by_cases hgt : cmpVersion acc.1 y.1 = .gt
    · rw [if_pos hgt]
      rcases hq with hq | hq | hq
      · subst hq
        exact pickMax_le ys q q (List.mem_cons_self q ys)
      · subst hq
        have hyacc : cmpVersion q.1 acc.1 = .lt := lawful_cmpVersion.gt_to_lt hgt
        have hacc : cmpVersion acc.1 (pickMax acc ys).1 ≠ .gt :=
          pickMax_le ys acc acc (List.mem_cons_self acc ys)
        exact lawful_cmpVersion.le_trans (by rw [hyacc]; simp) hacc
      · exact pickMax_le ys acc q (List.mem_cons_of_mem acc hq)
    · rw [if_neg hgt]
      have hy : cmpVersion y.1 (pickMax y ys).1 ≠ .gt :=
        pickMax_le ys y y (List.mem_cons_self y ys)
      rcases hq with hq | hq | hq
      · subst hq
        exact lawful_cmpVersion.le_trans hgt hy
      · subst hq; exact hy
      · exact pickMax_le ys y q (List.mem_cons_of_mem y hq)

theorem pickMax_decomp :
    ∀ (xs : List (Version × GitReference)) (acc : Version × GitReference),
      (pickMax acc xs = acc ∧ ∀ q ∈ xs, cmpVersion q.1 acc.1 = .lt) ∨
      (∃ l1 l2, xs = l1 ++ (pickMax acc xs) :: l2 ∧
        ∀ q ∈ l2, cmpVersion q.1 (pickMax acc xs).1 = .lt)
  | [], acc => by
    left
    exact ⟨rfl, by simp⟩
  | y :: ys, acc => by
    rw [pickMax_cons]
    by_cases hgt : cmpVersion acc.1 y.1 = .gt
    · rw [if_pos hgt]
      rcases pickMax_decomp ys acc with ⟨heq, hlt⟩ | ⟨l1, l2, hsplit, hlt⟩
      · left
        refine ⟨heq, ?_⟩
        intro q hq
        simp only [List.mem_cons] at hq
        rcases hq with hq | hq
        · subst hq
          exact lawful_cmpVersion.gt_to_lt hgt
        · exact hlt q hq
      · right
        exact ⟨y :: l1, l2, by rw [List.cons_append, ← hsplit], hlt⟩
    · rw [if_neg hgt]
      rcases pickMax_decomp ys y with ⟨heq, hlt⟩ | ⟨l1, l2, hsplit, hlt⟩
      · right
        refine ⟨[], ys, by simp [heq], ?_⟩
        intro q hq
        rw [heq]
        exact hlt q hq
      · right
        exact ⟨y :: l1, l2, by rw [List.cons_append, ← hsplit], hlt⟩

theorem maxByVersion_spec {l : List (Version × GitReference)}
    {p : Version × GitReference} (h : maxByVersion l = some p) :
    p ∈ l ∧ ∀ q ∈ l, cmpVersion q.1 p.1 ≠ .gt := by
  cases l with
  | nil => exact absurd h (by simp [maxByVersion])
  | cons x xs =>
    simp only [maxByVersion, Option.some_inj] at h
    subst h
    constructor
    · rcases pickMax_decomp xs x with ⟨heq, _⟩ | ⟨l1, l2, hsplit, _⟩
      · rw [heq]; exact List.mem_cons_self x xs
      · have hmem : pickMax x xs ∈ l1 ++ pickMax x xs :: l2 :=
          List.mem_append_right l1 (List.mem_cons_self _ _)
        rw [← hsplit] at hmem
        exact List.mem_cons_of_mem x hmem
    · exact fun q hq => pickMax_le xs x q hq

theorem maxByVersion_last {l : List (Version × GitReference)}
    {p : Version × GitReference} (h : maxByVersion l = some p) :
    ∃ l1 l2, l = l1 ++ p :: l2 ∧
      (∀ q ∈ l1, cmpVersion q.1 p.1 ≠ .gt) ∧
      (∀ q ∈ l2, cmpVersion q.1 p.1 = .lt) := by
  cases l with
  | nil => exact absurd h (by simp [maxByVersion])
  | cons x xs =>
    simp only [maxByVersion, Option.some_inj] at h
    subst h
    rcases pickMax_decomp xs x with ⟨heq, hlt⟩ | ⟨l1, l2, hsplit, hlt⟩
    · refine ⟨[], xs, by simp [heq], by simp, ?_⟩
      intro q hq
      rw [heq]
      exact hlt q hq
    · refine ⟨x :: l1, l2, by rw [List.cons_append, ← hsplit], ?_, hlt⟩
      intro q hq
      refine pickMax_le xs x q ?_
      simp only [List.mem_cons] at hq
      rcases hq with hq | hq
      · subst hq
        exact List.mem_cons_self q xs
      · refine List.mem_cons_of_mem x ?_
        rw [hsplit]
        exact List.mem_append_left _ hq

/-! ## Reachability: the iterated closure computes `Reaches` -/

/-- The identifiers present in the object store. -/
def storeIds (repo : Repo) : Finset String :=
  (repo.commits.map Commit.id).toFinset

theorem lookup_isSome_mem_store {repo : Repo} {o : String}
    (h : (lookupCommit repo o).isSome) : o ∈ storeIds repo := by
  unfold lookupCommit at h
  cases hf : repo.commits.find? (fun c => c.id == o) with
  | none => rw [hf] at h; simp at h
  | some c =>
    have hmem : c ∈ repo.commits := List.mem_of_find?_eq_some hf
    have hid := List.find?_some hf
    have : c.id = o := by simpa using hid
    subst this
    exact List.mem_toFinset.mpr (List.mem_map_of_mem Commit.id hmem)

theorem subset_closureStep (repo : Repo) (s : Finset String) : s ⊆ closureStep repo s :=
  Finset.subset_union_left

theorem root_mem_iter (repo : Repo) (root : String) :
    ∀ n, root ∈ (closureStep repo)^[n] {root}
  | 0 => Finset.mem_singleton_self root
  | n + 1 => by
    rw [Function.iterate_succ_apply']
    exact subset_closureStep repo _ (root_mem_iter repo root n)

theorem mem_parentsIn {repo : Repo} {a o : String} :
    o ∈ parentsIn repo a ↔
      ∃ ca, lookupCommit repo a = some ca ∧ o ∈ ca.parents ∧
        (lookupCommit repo o).isSome := by
  unfold parentsIn
  cases hla : lookupCommit repo a with
  | none =>
    simp only [List.not_mem_nil, false_iff]
    rintro ⟨ca, hca, -, -⟩
    exact absurd hca (by simp)
  | some ca =>
    simp only [List.mem_filter]
    constructor
    · rintro ⟨hmem, hsome⟩
      exact ⟨ca, rfl, hmem, hsome⟩
    · rintro ⟨ca2, hca2, hmem, hsome⟩
      have : ca2 = ca := (Option.some_inj.mp hca2).symm
      subst this
      exact ⟨hmem, hsome⟩

theorem iter_sound {repo : Repo} {root : String}
    (hroot : (lookupCommit repo root).isSome) :
    ∀ n, ∀ o ∈ (closureStep repo)^[n] {root},
      Reaches repo root o ∧ (lookupCommit repo o).isSome
  | 0 => by
    intro o ho
    rw [Function.iterate_zero_apply, Finset.mem_singleton] at ho
    subst ho
    exact ⟨Relation.ReflTransGen.refl, hroot⟩
  | n + 1 => by
    intro o ho
    rw [Function.iterate_succ_apply'] at ho
    unfold closureStep at ho
    rcases Finset.mem_union.mp ho with ho | ho
    · exact iter_sound hroot n o ho
    · rcases Finset.mem_biUnion.mp ho with ⟨a, haT, hoP⟩
      have hoP : o ∈ parentsIn repo a := List.mem_toFinset.mp hoP
      rcases mem_parentsIn.mp hoP with ⟨ca, hla, hmem, hsome⟩
      have ha := iter_sound hroot n a haT
      exact ⟨Relation.ReflTransGen.tail ha.1 ⟨ca, hla, hmem, hsome⟩, hsome⟩

theorem iter_subset_store {repo : Repo} {root : String}
    (hroot : (lookupCommit repo root).isSome) (n : Nat) :
    (closureStep repo)^[n] {root} ⊆ storeIds repo := by
  intro o ho
  exact lookup_isSome_mem_store (iter_sound hroot n o ho).2

theorem iter_card_grow {repo : Repo} {root : String} :
    ∀ n, (∀ k, k < n →
        (closureStep repo)^[k] {root} ≠ (closureStep repo)^[k + 1] {root}) →
      n + 1 ≤ ((closureStep repo)^[n] {root}).card
  | 0 => by
    intro _
    simp
  | n + 1 => by
    intro h
    have ih := iter_card_grow n (fun k hk => h k (Nat.lt_succ_of_lt hk))
    have hsub : (closureStep repo)^[n] {root} ⊆ (closureStep repo)^[n + 1] {root} := by
      rw [Function.iterate_succ_apply']
      exact subset_closureStep repo _
    have hne := h n (Nat.lt_succ_self n)
    have : ((closureStep repo)^[n] {root}).card < ((closureStep repo)^[n + 1] {root}).card :=
      Finset.card_lt_card (HasSubset.Subset.ssubset_of_ne hsub hne)
    omega

theorem closureStep_reachSet {repo : Repo} {root : String}
    (hroot : (lookupCommit repo root).isSome) :
    closureStep repo (reachSet repo root) = reachSet repo root := by
  have hbound : ∀ n, ((closureStep repo)^[n] {root}).card ≤ repo.commits.length :=
    fun n => le_trans (Finset.card_le_card (iter_subset_store hroot n))
      (le_trans (List.toFinset_card_le _) (le_of_eq (List.length_map _ _)))
  have hne : ¬ (∀ k, k < repo.commits.length →
      (closureStep repo)^[k] {root} ≠ (closureStep repo)^[k + 1] {root}) := by
    intro h
    have h1 := iter_card_grow repo.commits.length h
    have h2 := hbound repo.commits.length
    omega
  push_neg at hne
  obtain ⟨k, hk, heq⟩ := hne
  have hstable : ∀ m, k ≤ m →
      (closureStep repo)^[m] {root} = (closureStep repo)^[k] {root} := by
    intro m hm
    induction m, hm using Nat.le_induction with
    | base => rfl
    | succ m _ ih =>
      calc (closureStep repo)^[m + 1] {root}
          = closureStep repo ((closureStep repo)^[m] {root}) :=
            Function.iterate_succ_apply' _ _ _
        _ = closureStep repo ((closureStep repo)^[k] {root}) := by rw [ih]
        _ = (closureStep repo)^[k + 1] {root} :=
            (Function.iterate_succ_apply' _ _ _).symm
        _ = (closureStep repo)^[k] {root} := heq.symm
  unfold reachSet
  calc closureStep repo ((closureStep repo)^[repo.commits.length] {root})
      = (closureStep repo)^[repo.commits.length + 1] {root} :=
        (Function.iterate_succ_apply' _ _ _).symm
    _ = (closureStep repo)^[k] {root} := hstable _ (by omega)
    _ = (closureStep repo)^[repo.commits.length] {root} :=
        (hstable _ (le_of_lt hk)).symm

theorem reachSet_closed {repo : Repo} {root a o : String}
    (hroot : (lookupCommit repo root).isSome)
    (ha : a ∈ reachSet repo root) (ho : o ∈ parentsIn repo a) :
    o ∈ reachSet repo root := by
  rw [← closureStep_reachSet hroot]
  unfold closureStep
  exact Finset.mem_union.mpr (Or.inr
    (Finset.mem_biUnion.mpr ⟨a, ha, List.mem_toFinset.mpr ho⟩))

theorem reaches_mem_reachSet {repo : Repo} {root o : String}
    (hroot : (lookupCommit repo root).isSome)
    (h : Reaches repo root o) (ho : (lookupCommit repo o).isSome) :
    o ∈ reachSet repo root := by
  unfold Reaches at h
  revert ho
  induction h with
  | refl => exact fun _ => root_mem_iter repo root _
  | tail hrb hedge ih =>
    intro _
    obtain ⟨cb, hlb, hmem, hcsome⟩ := hedge
    have hb := ih (by rw [hlb]; rfl)
    exact reachSet_closed hroot hb (mem_parentsIn.mpr ⟨cb, hlb, hmem, hcsome⟩)

/-- The computed closure is exactly specification-side reachability into
the object store. -/
theorem mem_reachSet_iff {repo : Repo} {root o : String}
    (hroot : (lookupCommit repo root).isSome) :
    o ∈ reachSet repo root ↔
      Reaches repo root o ∧ (lookupCommit repo o).isSome :=
  ⟨fun h => iter_sound hroot _ o h,
   fun h => reaches_mem_reachSet hroot h.1 h.2⟩

/-! ## Characterizing the revwalk and the orchestrator -/

/-- The hidden set of a walk configuration. -/
def hideSet (repo : Repo) : Option String → Finset String
  | some h => reachSet repo h
  | none => ∅

theorem revwalkTimeDesc_eq {repo : Repo} {base : String} {cb : Commit}
    (hb : lookupCommit repo base = some cb) (hide : Option String) :
    revwalkTimeDesc repo base hide = .ok (List.insertionSort timeDescOrd
      (repo.commits.filter (fun c =>
        decide (c.id ∈ reachSet repo base) && !decide (c.id ∈ hideSet repo hide)))) := by
  unfold revwalkTimeDesc
  rw [hb]
  cases hide <;> rfl

theorem revwalk_ok_inv {repo : Repo} {base : String} {hide : Option String}
    {out : List Commit} (h : revwalkTimeDesc repo base hide = .ok out) :
    (lookupCommit repo base).isSome ∧
      List.Sorted timeDescOrd out ∧
      ∀ c : Commit, c ∈ out ↔
        c ∈ repo.commits ∧ c.id ∈ reachSet repo base ∧ c.id ∉ hideSet repo hide := by
  cases hb : lookupCommit repo base with
  | none =>
    unfold revwalkTimeDesc at h
    rw [hb] at h
    exact absurd h (by simp)
  | some cb =>
    rw [revwalkTimeDesc_eq hb hide] at h
    have hout := Except.ok.inj h
    subst hout
    refine ⟨rfl, List.sorted_insertionSort timeDescOrd _, ?_⟩
    intro c
    rw [List.mem_insertionSort, List.mem_filter]
    simp

theorem get_commits_ok_inv {repo : Repo} {tagRef : GitReference}
    {commits : List Commit}
    (h : get_commits_after_latest_tag repo = .ok (tagRef, commits)) :
    ∃ v tagOid baseName baseOid,
      maxByVersion (tagCandidates repo) = some (v, tagRef) ∧
      tagRef.peelTo = some tagOid ∧
      resolve_default_base repo = .ok (baseName, baseOid) ∧
      revwalkTimeDesc repo baseOid ((repo.mergeBase tagOid baseOid).toOption)
        = .ok commits := by
  unfold get_commits_after_latest_tag at h
  cases hmax : maxByVersion (tagCandidates repo) with
  | none => rw [hmax] at h; exact absurd h (by simp)
  | some p =>
    obtain ⟨v, r⟩ := p
    rw [hmax] at h
    simp only at h
    cases hpeel : r.peelTo with
    | none => rw [hpeel] at h; exact absurd h (by simp)
    | some tagOid =>
      rw [hpeel] at h
      cases hres : resolve_default_base repo with
      | error e => rw [hres] at h; exact absurd h (by simp)
      | ok pr =>
        obtain ⟨bn, baseOid⟩ := pr
        rw [hres] at h
        simp only at h
        cases hwalk : revwalkTimeDesc repo baseOid
            ((repo.mergeBase tagOid baseOid).toOption) with
        | error e => rw [hwalk] at h; exact absurd h (by simp)
        | ok cs =>
          rw [hwalk] at h
          have h2 := Except.ok.inj h
          have hr : r = tagRef := congrArg Prod.fst h2
          have hcs : cs = commits := congrArg Prod.snd h2
          subst hr
          subst hcs
          exact ⟨v, tagOid, bn, baseOid, rfl, hpeel, rfl, hwalk⟩

theorem mem_commits_lookup_isSome {repo : Repo} {c : Commit}
    (h : c ∈ repo.commits) : (lookupCommit repo c.id).isSome := by
  unfold lookupCommit
  rw [List.find?_isSome]
  exact ⟨c, h, by simp⟩

theorem findNewline_take : ∀ l : List Char,
    (match findNewline l with
     | some pos => l.take pos
     | none => l) = l.takeWhile (fun ch => ch != '\n')
  | [] => rfl
  | c :: t => by
    show (match (if c = '\n' then some 0 else (findNewline t).map (· + 1)) with
      | some pos => (c :: t).take pos
      | none => c :: t) = (c :: t).takeWhile (fun ch => ch != '\n')
    by_cases hc : c = '\n'
    · subst hc
      rw [if_pos rfl, List.takeWhile_cons]
      simp
    · rw [if_neg hc, List.takeWhile_cons]
      have hcb : (c != '\n') = true := by simpa using hc
      rw [hcb]
      have ih := findNewline_take t
      cases hf : findNewline t with
      | none =>
        rw [hf] at ih
        simp only [Option.map_none', if_true]
        rw [← ih]
      | some p =>
        rw [hf] at ih
        simp only [Option.map_some', if_true, List.take_succ_cons]
        rw [← ih]

theorem takeWhile_no_newline : ∀ l : List Char, '\n' ∉ l →
    l.takeWhile (fun ch => ch != '\n') = l
  | [], _ => rfl
  | c :: t, h => by
    rw [List.takeWhile_cons]
    have hc : (c != '\n') = true := by
      simp only [bne_iff_ne, ne_eq]
      intro hcc
      exact h (by rw [hcc]; exact List.mem_cons_self _ _)
    rw [hc]
    simp only [if_true]
    rw [takeWhile_no_newline t (fun hm => h (List.mem_cons_of_mem c hm))]

/-! ## The claims -/

/-- C1: for every set of tag references, `get_commits_after_latest_tag`
selects as the latest tag exactly the maximum under standard
semantic-version ordering among those tags whose short name (after
stripping one optional leading `v`) parses as a semantic version;
references without a short name and references that fail to parse are
skipped and never affect the candidate scan (so they never cause it to
fail). The first conjunct states that the selected candidate is one of the
parsed candidates and is maximal for `cmpStd` (standard semver precedence);
the second states that removing any skipped reference from the scan leaves
the candidate list — and hence the selection — unchanged. -/
theorem tag_selector_selects_std_max :
    (∀ (repo : Repo) (v : Version) (r : GitReference),
      maxByVersion (tagCandidates repo) = some (v, r) →
        (v, r) ∈ tagCandidates repo ∧
        ∀ q ∈ tagCandidates repo, cmpStd q.1 v ≠ .gt) ∧
    (∀ (repo repo2 : Repo) (l1 l2 : List GitReference) (b : GitReference),
      repo.refs = l1 ++ b :: l2 →
      repo2.refs = l1 ++ l2 →
      (b.shorthand = none ∨
        ∃ n, b.shorthand = some n ∧ parseSemver (stripV n.data) = none) →
      tagCandidates repo = tagCandidates repo2) := by
  constructor
  · intro repo v r h
    obtain ⟨hmem, hle⟩ := maxByVersion_spec h
    exact ⟨hmem, fun q hq => cmpStd_ne_gt_of_cmpVersion (hle q hq)⟩
  · intro repo repo2 l1 l2 b h1 h2 hbad
    have htc : tagCandidate b = none := by
      unfold tagCandidate
      rcases hbad with hnone | ⟨n, hs, hp⟩
      · rw [hnone]
      · rw [hs]
        show Option.map (fun v => (v, b)) (parseSemver (stripV n.data)) = none
        rw [hp]
        rfl
    unfold tagCandidates tagReferences
    rw [h1, h2, List.filter_append, List.filter_append, List.filter_cons]
    by_cases hg : (match b.name with
        | some n => hasLead "refs/tags/".data n.data
        | none => false) = true
    · rw [if_pos hg, List.filterMap_append, List.filterMap_append,
        List.filterMap_cons, htc]
    · rw [if_neg hg]

/-- C1 witness: in the example repository with tags `1.0.0`, `latest`,
`1.1.0`, the selected candidate `1.1.0` is a parsed candidate, the
candidate `1.0.0` does not exceed it in standard ordering, and deleting the
non-parsing tag `latest` from the scan leaves the candidate list
unchanged. -/
theorem tag_selector_selects_std_max_witness :
    ((⟨1, 1, 0, [], []⟩ : Version), exTag110) ∈ tagCandidates exRepoBad ∧
    cmpStd ⟨1, 0, 0, [], []⟩ ⟨1, 1, 0, [], []⟩ ≠ .gt ∧
    tagCandidates exRepoBad = tagCandidates exRepo := by
  have h1 := (tag_selector_selects_std_max.1 exRepoBad ⟨1, 1, 0, [], []⟩ exTag110 rfl)
  refine ⟨h1.1, h1.2 (⟨1, 0, 0, [], []⟩, exTag100) (by decide), ?_⟩
  exact tag_selector_selects_std_max.2 exRepoBad exRepo [exHead, exTag100] [exTag110]
    exTagBad rfl rfl (Or.inr ⟨"latest", rfl, rfl⟩)

/-- C2 counterexample: in `tieRepo` the references `refs/tags/1.0.0` and
`refs/tags/v1.0.0` are scanned in that order and parse to equal versions,
yet the selector returns the second (`tieRefB`), not the first — Rust's
`Iterator::max_by` keeps the last of equally-maximum elements, so the claim
that the first-encountered candidate wins is false. -/
theorem tag_tiebreak_first_counterexample :
    tagCandidates tieRepo =
      [(⟨1, 0, 0, [], []⟩, tieRefA), (⟨1, 0, 0, [], []⟩, tieRefB)] ∧
    cmpVersion ⟨1, 0, 0, [], []⟩ ⟨1, 0, 0, [], []⟩ = .eq ∧
    maxByVersion (tagCandidates tieRepo) = some (⟨1, 0, 0, [], []⟩, tieRefB) ∧
    tieRefB ≠ tieRefA := by
  refine ⟨rfl, rfl, rfl, ?_⟩
  decide

/-- C2 (amended): when several candidates compare equal and maximal, the
selector returns whichever the scan encounters LAST: the selected candidate
splits the candidate list so that everything after it compares strictly
below it (in particular no later candidate ties with it), while everything
before it compares no greater. -/
theorem tag_tiebreak_last_max (repo : Repo) (v : Version) (r : GitReference)
    (h : maxByVersion (tagCandidates repo) = some (v, r)) :
    ∃ l1 l2, tagCandidates repo = l1 ++ (v, r) :: l2 ∧
      (∀ q ∈ l1, cmpVersion q.1 v ≠ .gt) ∧
      (∀ q ∈ l2, cmpVersion q.1 v = .lt) :=
  maxByVersion_last h

/-- C2 witness: the amended statement instantiated on the tie repository:
the selected reference is `tieRefB`, and it is the last candidate. -/
theorem tag_tiebreak_last_max_witness :
    ∃ l1 l2, tagCandidates tieRepo = l1 ++ (⟨1, 0, 0, [], []⟩, tieRefB) :: l2 ∧
      (∀ q ∈ l1, cmpVersion q.1 ⟨1, 0, 0, [], []⟩ ≠ .gt) ∧
      (∀ q ∈ l2, cmpVersion q.1 ⟨1, 0, 0, [], []⟩ = .lt) :=
  tag_tiebreak_last_max tieRepo ⟨1, 0, 0, [], []⟩ tieRefB rfl

/-- C5: in every repository where no tag reference parses as a semantic
version (including one with no tags at all), `get_commits_after_latest_tag`
fails with the error message `no semver tags found` and returns no commit
list. -/
theorem no_semver_tags_error (repo : Repo)
    (h : ∀ r ∈ tagReferences repo, ∀ n, r.shorthand = some n →
      parseSemver (stripV n.data) = none) :
    get_commits_after_latest_tag repo = .error "no semver tags found" := by
  have hcand : tagCandidates repo = [] := by
    unfold tagCandidates
    rw [List.filterMap_eq_nil_iff]
    intro r hr
    unfold tagCandidate
    cases hs : r.shorthand with
    | none => rfl
    | some n =>
      show Option.map (fun v => (v, r)) (parseSemver (stripV n.data)) = none
      rw [h r hr n hs]
      rfl
  unfold get_commits_after_latest_tag
  rw [hcand]
  rfl

/-- C5 witness: a repository with commits but no tag references fails with
the `no semver tags found` error. -/
theorem no_semver_tags_error_witness :
    get_commits_after_latest_tag exRepoNoTags = .error "no semver tags found" :=
  no_semver_tags_error exRepoNoTags (by
    intro r hr
    rw [show tagReferences exRepoNoTags = [] from rfl] at hr
    exact absurd hr (List.not_mem_nil r))

/-- C6: whenever `get_commits_after_latest_tag` succeeds, the returned
commit sequence is ordered by commit timestamp, descending (newest
first). -/
theorem commit_list_time_sorted_desc (repo : Repo) (tagRef : GitReference)
    (commits : List Commit)
    (h : get_commits_after_latest_tag repo = .ok (tagRef, commits)) :
    List.Sorted (fun a b : Commit => b.time ≤ a.time) commits := by
  obtain ⟨v, tagOid, bn, baseOid, hmax, hpeel, hres, hwalk⟩ := get_commits_ok_inv h
  exact (revwalk_ok_inv hwalk).2.1

/-- C6 witness: the example repository's result `[exC3]` is sorted by
descending commit time. -/
theorem commit_list_time_sorted_desc_witness :
    List.Sorted (fun a b : Commit => b.time ≤ a.time) [exC3] :=
  commit_list_time_sorted_desc exRepo exTag110 [exC3] rfl

/-- C3: for every successful run of `get_commits_after_latest_tag`: when
the merge-base oracle returns a merge-base `mb` (an existing commit), the
returned sequence contains exactly the stored commits reachable from the
resolved base commit and not reachable from `mb`; when no merge-base exists
(the oracle fails), the sequence contains every stored commit reachable
from the base commit, with no exclusion. -/
theorem range_walker_merge_base_semantics (repo : Repo)
    (tagRef : GitReference) (commits : List Commit)
    (tagOid baseName baseOid : String)
    (h : get_commits_after_latest_tag repo = .ok (tagRef, commits))
    (hpeel : tagRef.peelTo = some tagOid)
    (hres : resolve_default_base repo = .ok (baseName, baseOid)) :
    (∀ mb, repo.mergeBase tagOid baseOid = .ok mb →
      (lookupCommit repo mb).isSome →
      ∀ c : Commit, c ∈ commits ↔
        c ∈ repo.commits ∧ Reaches repo baseOid c.id ∧ ¬ Reaches repo mb c.id) ∧
    (∀ e, repo.mergeBase tagOid baseOid = .error e →
      ∀ c : Commit, c ∈ commits ↔
        c ∈ repo.commits ∧ Reaches repo baseOid c.id) := by
  obtain ⟨v, tagOid2, bn2, baseOid2, hmax, hpeel2, hres2, hwalk⟩ :=
    get_commits_ok_inv h
  have htag : tagOid2 = tagOid := by
    rw [hpeel2] at hpeel
    exact Option.some_inj.mp hpeel
  have hbase2 : baseOid2 = baseOid := by
    rw [hres2] at hres
    exact congrArg Prod.snd (Except.ok.inj hres)
  subst htag
  subst hbase2
  obtain ⟨hbaseSome, hsorted, hmem⟩ := revwalk_ok_inv hwalk
  constructor
  · intro mb hmb hmbSome c
    have hmem2 := hmem c
    rw [hmb] at hmem2
    simp only [Except.toOption, hideSet] at hmem2
    rw [hmem2]
    constructor
    · rintro ⟨hc, hr, hnm⟩
      refine ⟨hc, ((mem_reachSet_iff hbaseSome).mp hr).1, ?_⟩
      intro hreach
      exact hnm ((mem_reachSet_iff hmbSome).mpr ⟨hreach, mem_commits_lookup_isSome hc⟩)
    · rintro ⟨hc, hr, hnm⟩
      refine ⟨hc, (mem_reachSet_iff hbaseSome).mpr ⟨hr, mem_commits_lookup_isSome hc⟩, ?_⟩
      intro hin
      exact hnm ((mem_reachSet_iff hmbSome).mp hin).1
  · intro e he c
    have hmem2 := hmem c
    rw [he] at hmem2
    simp only [Except.toOption, hideSet, Finset.not_mem_empty, not_false_iff,
      and_true] at hmem2
    rw [hmem2]
    constructor
    · rintro ⟨hc, hr⟩
      exact ⟨hc, ((mem_reachSet_iff hbaseSome).mp hr).1⟩
    · rintro ⟨hc, hr⟩
      exact ⟨hc, (mem_reachSet_iff hbaseSome).mpr ⟨hr, mem_commits_lookup_isSome hc⟩⟩

/-- C3 witness: in the example repository (merge-base `bbb` of tag `1.1.0`
and base `ccc`), membership of the returned sequence `[exC3]` is exactly
"reachable from `ccc` and not from `bbb`", instantiated at `exC3`. -/
theorem range_walker_merge_base_semantics_witness :
    exC3 ∈ [exC3] ↔
      exC3 ∈ exRepo.commits ∧ Reaches exRepo "ccc" exC3.id ∧
        ¬ Reaches exRepo "bbb" exC3.id :=
  (range_walker_merge_base_semantics exRepo exTag110 [exC3] "bbb"
    "refs/heads/main" "ccc" rfl rfl rfl).1 "bbb" rfl rfl exC3

/-- C10: any failure of the merge-base computation — regardless of the
error — is treated as "no merge-base": the error is discarded, no hide
boundary is set, the operation still succeeds, and the walk returns every
stored commit reachable from the base commit. -/
theorem merge_base_failure_swallowed (repo : Repo) (v : Version)
    (tagRef : GitReference) (tagOid baseName baseOid e : String) (cb : Commit)
    (hmax : maxByVersion (tagCandidates repo) = some (v, tagRef))
    (hpeel : tagRef.peelTo = some tagOid)
    (hres : resolve_default_base repo = .ok (baseName, baseOid))
    (hmb : repo.mergeBase tagOid baseOid = .error e)
    (hbase : lookupCommit repo baseOid = some cb) :
    ∃ commits, get_commits_after_latest_tag repo = .ok (tagRef, commits) ∧
      ∀ c : Commit, c ∈ commits ↔ c ∈ repo.commits ∧ Reaches repo baseOid c.id := by
  have hbaseSome : (lookupCommit repo baseOid).isSome := by rw [hbase]; rfl
  have hwalk := revwalkTimeDesc_eq hbase none
  refine ⟨List.insertionSort timeDescOrd
    (repo.commits.filter (fun c =>
      decide (c.id ∈ reachSet repo baseOid) &&
        !decide (c.id ∈ hideSet repo none))), ?_, ?_⟩
  · unfold get_commits_after_latest_tag
    rw [hmax]
    show (match tagRef.peelTo with
      | none => Except.error ("could not peel tag " ++ (tagRef.name.getD "?"))
      | some tag_oid =>
        match resolve_default_base repo with
        | Except.error e => Except.error e
        | Except.ok (_base_name, base_oid) =>
          match revwalkTimeDesc repo base_oid
              ((repo.mergeBase tag_oid base_oid).toOption) with
          | Except.error e => Except.error e
          | Except.ok commits => Except.ok (tagRef, commits)) = _
    rw [hpeel]
    show (match resolve_default_base repo with
      | Except.error e => Except.error e
      | Except.ok (_base_name, base_oid) =>
        match revwalkTimeDesc repo base_oid
            ((repo.mergeBase tagOid base_oid).toOption) with
        | Except.error e => Except.error e
        | Except.ok commits => Except.ok (tagRef, commits)) = _
    rw [hres]
    show (match revwalkTimeDesc repo baseOid
        ((repo.mergeBase tagOid baseOid).toOption) with
      | Except.error e => Except.error e
      | Except.ok commits => Except.ok (tagRef, commits)) = _
    rw [hmb]
    show (match revwalkTimeDesc repo baseOid none with
      | Except.error e => Except.error e
      | Except.ok commits => Except.ok (tagRef, commits)) = _
    rw [hwalk]
  · intro c
    obtain ⟨_, _, hmem⟩ := revwalk_ok_inv hwalk
    rw [hmem c]
    simp only [hideSet, Finset.not_mem_empty, not_false_iff, and_true]
    constructor
    · rintro ⟨hc, hr⟩
      exact ⟨hc, ((mem_reachSet_iff hbaseSome).mp hr).1⟩
    · rintro ⟨hc, hr⟩
      exact ⟨hc, (mem_reachSet_iff hbaseSome).mpr ⟨hr, mem_commits_lookup_isSome hc⟩⟩

/-- C10 witness: in the repository whose merge-base oracle always fails,
the resolution still succeeds and yields exactly the commits reachable from
the base (instantiated at `exC1`, an ancestor that is included). -/
theorem merge_base_failure_swallowed_witness :
    ∃ commits, get_commits_after_latest_tag exRepoMBFail = .ok (exTag110, commits) ∧
      ∀ c : Commit, c ∈ commits ↔
        c ∈ exRepoMBFail.commits ∧ Reaches exRepoMBFail "ccc" c.id :=
  merge_base_failure_swallowed exRepoMBFail ⟨1, 1, 0, [], []⟩ exTag110 "bbb"
    "refs/heads/main" "ccc" "unexpected merge base failure" exC3
    rfl rfl rfl rfl rfl

/-- C4: default-branch resolution tries its three strategies in strict
order. Conjuncts: (1) a successful `origin/HEAD` strategy wins outright;
(2) when it yields nothing, a successful remote-advertised strategy wins;
(3) when both yield nothing, the current HEAD is used (with name defaulting
to `HEAD`); (4) an error surfaces only when the first two strategies
yielded nothing and HEAD cannot be resolved to a commit — so failures of
the first two strategies never surface as errors; (5) within strategy 1 the
equivalent local branch is preferred; (6) and only when the local branch
does not resolve is the remote-tracking reference used; (7) within strategy
2 the advertised name is tried as a local reference first; (8) and only
when that fails is the constructed remote-tracking reference used. -/
theorem default_base_strategy_cascade :
    (∀ (repo : Repo) (res : String × String),
      resolve_from_origin_head repo = some res →
        resolve_default_base repo = .ok res) ∧
    (∀ (repo : Repo) (res : String × String),
      resolve_from_origin_head repo = none →
      resolve_from_remote_default repo = some res →
        resolve_default_base repo = .ok res) ∧
    (∀ (repo : Repo) (head : GitReference) (oid : String),
      resolve_from_origin_head repo = none →
      resolve_from_remote_default repo = none →
      repo.headRef = some head → head.target = some oid →
        resolve_default_base repo = .ok (head.name.getD "HEAD", oid)) ∧
    (∀ (repo : Repo) (e : String),
      resolve_default_base repo = .error e →
        resolve_from_origin_head repo = none ∧
        resolve_from_remote_default repo = none ∧
        (repo.headRef = none ∨
          ∃ head, repo.headRef = some head ∧ head.target = none)) ∧
    (∀ (repo : Repo) (oh : GitReference) (sym oid : String),
      find_reference repo "refs/remotes/origin/HEAD" = some oh →
      oh.symbolicTarget = some sym →
      (find_reference repo ("refs/heads/" ++ stripRemOrigin sym)).bind
        GitReference.target = some oid →
        resolve_from_origin_head repo =
          some ("refs/heads/" ++ stripRemOrigin sym, oid)) ∧
    (∀ (repo : Repo) (oh : GitReference) (sym oid : String),
      find_reference repo "refs/remotes/origin/HEAD" = some oh →
      oh.symbolicTarget = some sym →
      (find_reference repo ("refs/heads/" ++ stripRemOrigin sym)).bind
        GitReference.target = none →
      (find_reference repo sym).bind GitReference.target = some oid →
        resolve_from_origin_head repo = some (sym, oid)) ∧
    (∀ (repo : Repo) (name oid : String),
      repo.originDefault = some name →
      (find_reference repo name).bind GitReference.target = some oid →
        resolve_from_remote_default repo = some (name, oid)) ∧
    (∀ (repo : Repo) (name suffix oid : String),
      repo.originDefault = some name →
      (find_reference repo name).bind GitReference.target = none →
      stripHeads name = some suffix →
      (find_reference repo ("refs/remotes/origin/" ++ suffix)).bind
        GitReference.target = some oid →
        resolve_from_remote_default repo =
          some ("refs/remotes/origin/" ++ suffix, oid)) := by
  refine ⟨?_, ?_, ?_, ?_, ?_, ?_, ?_, ?_⟩
  · intro repo res h
    simp only [resolve_default_base, h]
  · intro repo res h1 h2
    simp only [resolve_default_base, h1, h2]
  · intro repo head oid h1 h2 h3 h4
    simp only [resolve_default_base, h1, h2, h3, h4]
  · intro repo e h
    unfold resolve_default_base at h
    cases h1 : resolve_from_origin_head repo with
    | some r => rw [h1] at h; exact absurd h (by simp)
    | none =>
      rw [h1] at h
      cases h2 : resolve_from_remote_default repo with
      | some r => rw [h2] at h; exact absurd h (by simp)
      | none =>
        rw [h2] at h
        cases h3 : repo.headRef with
        | none => exact ⟨rfl, rfl, Or.inl rfl⟩
        | some head =>
          rw [h3] at h
          have h5 : (match head.target with
            | none => Except.error "HEAD has no target"
            | some base_oid =>
              Except.ok (head.name.getD "HEAD", base_oid)) = Except.error e := h
          cases h4 : head.target with
          | none => exact ⟨rfl, rfl, Or.inr ⟨head, rfl, h4⟩⟩
          | some oid =>
            rw [h4] at h5
            exact absurd h5 (by simp)
  · intro repo oh sym oid h1 h2 h3
    simp only [resolve_from_origin_head, h1, h2, h3]
  · intro repo oh sym oid h1 h2 h3 h4
    simp only [resolve_from_origin_head, h1, h2, h3, h4]
  · intro repo name oid h1 h2
    simp only [resolve_from_remote_default, h1, h2]
  · intro repo name suffix oid h1 h2 h3 h4
    simp only [resolve_from_remote_default, h1, h2, h3, h4]

/-- C4 witness: the three concrete repositories exercise the cascade: in
`exRepoS1` strategy 1 resolves the local `main` branch; in `exRepoS2`
(no `origin/HEAD`) strategy 2 resolves the remote-tracking branch of the
advertised default; in `exRepoS3` (neither strategy applies) the current
HEAD is used. -/
theorem default_base_strategy_cascade_witness :
    resolve_default_base exRepoS1 = .ok ("refs/heads/main", "ccc") ∧
    resolve_default_base exRepoS2 = .ok ("refs/remotes/origin/main", "bbb") ∧
    resolve_default_base exRepoS3 = .ok ("refs/heads/main", "ccc") :=
  ⟨default_base_strategy_cascade.1 exRepoS1 ("refs/heads/main", "ccc") rfl,
   default_base_strategy_cascade.2.1 exRepoS2 ("refs/remotes/origin/main", "bbb")
     rfl rfl,
   default_base_strategy_cascade.2.2.1 exRepoS3 exHead "ccc" rfl rfl rfl rfl⟩

/-- C7 counterexample: the claim quantifies over every tag name `s`; for
`s = "v1.0.0"` the pair `s` and `"v" ++ s = "vv1.0.0"` is NOT treated
identically: `s` parses (to `1.0.0`) after the single `v` strip, while
`"v" ++ s` still starts with `v` after one strip and is skipped. -/
theorem v_strip_pair_counterexample :
    vRef.shorthand = some "v1.0.0" ∧
    vvRef.shorthand = some ("v" ++ "v1.0.0") ∧
    tagCandidate vRef = some (⟨1, 0, 0, [], []⟩, vRef) ∧
    tagCandidate vvRef = none :=
  ⟨rfl, rfl, rfl, rfl⟩

/-- C7 (amended): for every tag name `s` that does not itself begin with
`v`, the names `s` and `"v" ++ s` are treated identically: stripping one
optional leading `v` gives both the same parse outcome (the same version,
or both skipped), and a version always compares equal to itself in the
maximum selection. -/
theorem v_strip_consistent_amended (s : String)
    (hv : s.data.head? ≠ some 'v') :
    parseSemver (stripV ("v" ++ s).data) = parseSemver (stripV s.data) ∧
    ∀ v, parseSemver (stripV s.data) = some v → cmpVersion v v = .eq := by
  have hdata : ("v" ++ s).data = 'v' :: s.data := by
    cases s with
    | mk l => rfl
  constructor
  · rw [hdata]
    have h1 : stripV ('v' :: s.data) = s.data := by simp [stripV]
    have h2 : stripV s.data = s.data := by
      cases hl : s.data with
      | nil => rfl
      | cons c t =>
        have hc : c ≠ 'v' := by
          intro hcc
          subst hcc
          rw [hl] at hv
          exact hv rfl
        simp [stripV, hc]
    rw [h1, h2]
  · intro v _
    exact lawful_cmpVersion.refl v

/-- C7 witness: for `s = "1.0.0"`, the names `1.0.0` and `v1.0.0` parse to
the same version. -/
theorem v_strip_consistent_amended_witness :
    parseSemver (stripV ("v" ++ "1.0.0").data) =
      parseSemver (stripV ("1.0.0" : String).data) ∧
    ∀ v, parseSemver (stripV ("1.0.0" : String).data) = some v →
      cmpVersion v v = .eq :=
  v_strip_consistent_amended "1.0.0" (by decide)

/-- C8: `get_short_message` returns the prefix of the commit message up to
(and excluding) the first newline; a message with no newline is returned
unchanged, and an empty message yields the empty string. -/
theorem short_message_first_line (c : Commit) (msg : String)
    (h : c.message = some msg) :
    (get_short_message c).data = msg.data.takeWhile (fun ch => ch != '\n') ∧
    ('\n' ∉ msg.data → get_short_message c = msg) ∧
    (msg = "" → get_short_message c = "") := by
  have hdef : get_short_message c =
      (match findNewline msg.data with
       | some pos => (⟨msg.data.take pos⟩ : String)
       | none => msg) := by
    unfold get_short_message
    rw [h]
    rfl
  have hdata : (get_short_message c).data = msg.data.takeWhile (fun ch => ch != '\n') := by
    rw [hdef]
    have := findNewline_take msg.data
    cases hf : findNewline msg.data with
    | none =>
      rw [hf] at this
      exact this
    | some p =>
      rw [hf] at this
      exact this
  refine ⟨hdata, ?_, ?_⟩
  · intro hnl
    apply String.ext
    rw [hdata]
    exact takeWhile_no_newline msg.data hnl
  · intro hempty
    subst hempty
    apply String.ext
    rw [hdata]
    rfl

/-- C8 witness: the commit with message `"First line\nSecond line"` yields
short form `"First line"` (takeWhile form plus the two special cases). -/
theorem short_message_first_line_witness :
    (get_short_message msgCommit).data =
      ("First line\nSecond line" : String).data.takeWhile (fun ch => ch != '\n') ∧
    get_short_message msgCommit = "First line" :=
  ⟨(short_message_first_line msgCommit "First line\nSecond line" rfl).1, rfl⟩

/-- C9: `get_abbreviated_hash` returns exactly the first 7 characters of
the canonical hex form when it is longer than 7 characters (it has length 7
and is a front segment of the input), and returns the whole string
unchanged when it is 7 characters or shorter. -/
theorem abbreviated_hash_first7 (h : String) :
    (h.data.length ≤ 7 → get_abbreviated_hash h = h) ∧
    (7 < h.data.length →
      (get_abbreviated_hash h).data.length = 7 ∧
      (get_abbreviated_hash h).data ++ h.data.drop 7 = h.data) := by
  constructor
  · intro hle
    unfold get_abbreviated_hash
    rw [if_neg (by omega)]
  · intro hgt
    unfold get_abbreviated_hash
    rw [if_pos hgt]
    constructor
    · show (h.data.take 7).length = 7
      rw [List.length_take]
      omega
    · exact List.take_append_drop 7 h.data

/-- C9 witness: a 40-character hex identifier yields exactly its first 7
characters, and a short identifier is returned unchanged. -/
theorem abbreviated_hash_first7_witness :
    get_abbreviated_hash "abc" = "abc" ∧
    (get_abbreviated_hash "0123456789abcdef0123456789abcdef01234567").data.length = 7 ∧
    (get_abbreviated_hash "0123456789abcdef0123456789abcdef01234567").data ++
      ("0123456789abcdef0123456789abcdef01234567" : String).data.drop 7 =
      ("0123456789abcdef0123456789abcdef01234567" : String).data :=
  ⟨(abbreviated_hash_first7 "abc").1 (by decide),
   ((abbreviated_hash_first7 "0123456789abcdef0123456789abcdef01234567").2
     (by decide)).1,
   ((abbreviated_hash_first7 "0123456789abcdef0123456789abcdef01234567").2
     (by decide)).2⟩

end Release
